import Mathlib

/-!
Verification of `msprime/branch_stats.py`.

The Python module computes branch statistics over tree sequences.  We embed it
shallowly: Python floats become `ℚ`, Python lists indexed by node id become
functions `Nat → _` (updated pointwise), the unbounded `while` walks become
fuel-bounded recursion (`none` / fuel exhaustion models a walk that never
terminates), and `raise` becomes `Except.error`.

The single-tree query interface (`mrca`, `parent`, `branch_length`,
`num_tracked_leaves`, node and mutation iteration) and the diff stream
(`ts.diffs()`) are external collaborators of this module; they are modelled
from the spec (sections 3, 4.4 and 6) as explicit structure fields.
-/

namespace BranchStats

/-- Pointwise update of a function-array at one index (Python `a[i] = v`). -/
def upd {α : Type} (f : Nat → α) (i : Nat) (v : α) : Nat → α :=
  fun j => if j = i then v else f j

/-- Count vectors: one integer per leaf group (a Python list of ints). -/
abbrev Vec := List Int

/-- Pointwise `for k in range(g): a[k] += b[k]`. -/
def vAdd (a b : Vec) : Vec := List.zipWith (· + ·) a b

/-- Pointwise `for k in range(g): a[k] -= b[k]`. -/
def vSub (a b : Vec) : Vec := List.zipWith (· - ·) a b

/-- The all-zero count vector of length `g`. -/
def zeroVec (g : Nat) : Vec := List.replicate g 0

/-- Modelled from the spec: the single-tree query interface of section 6
(external to this module): `mrca(a,b)`, `parent(node)` (`-1` when absent),
node times, node iteration, mutation iteration (node-tagged), the genomic
span `length` of the snapshot, and the single `root`. -/
structure Tree where
  nodes : List Nat
  root : Nat
  parent : Nat → Int
  time : Nat → ℚ
  length : ℚ
  mutations : List Nat
  mrca : Nat → Nat → Nat

/-- `tr.branch_length(u) = time(parent(u)) - time(u)`.  At a parentless node we
return `0`; the embedded walks only reach that case on the step before they
report failure, so the value is never observable in a successful run. -/
def branchLength (tr : Tree) (u : Nat) : ℚ :=
  match tr.parent u with
  | Int.ofNat p => tr.time p - tr.time u
  | Int.negSucc _ => 0

/-- Fuel-bounded embedding of one `while u != mrca` walk of `path_length`:
accumulate `tr.branch_length(u)` and step to `tr.parent(u)` until reaching `m`.
`none` models a walk that never reaches `m` (the Python loop would not
terminate, or would step through the `-1` sentinel). -/
def walkSum (tr : Tree) : Nat → Int → Nat → Option ℚ
  | 0, u, m => if u = (m : Int) then some 0 else none
  | fuel+1, u, m =>
    if u = (m : Int) then some 0
    else
      match u with
      | Int.ofNat un => (walkSum tr fuel (tr.parent un) m).map (· + branchLength tr un)
      | Int.negSucc _ => none

/-- `path_length(tr, x, y)`: the walk from `x` plus the walk from `y`, both up
to `tr.mrca(x, y)`. -/
def path_length (tr : Tree) (fuel : Nat) (x y : Nat) : Option ℚ :=
  match walkSum tr fuel (x : Int) (tr.mrca x y), walkSum tr fuel (y : Int) (tr.mrca x y) with
  | some a, some b => some (a + b)
  | _, _ => none

/-- A tree sequence as consumed by the naive statistics: the materialized tree
snapshots in genomic order, plus the total sequence length. -/
structure TreeSeq where
  trees : List Tree
  sequence_length : ℚ

/-- The accumulation loop of `branch_length_diversity`:
`S += path_length(tr,x,y) * tr.length` over the trees. -/
def diversityAux (fuel : Nat) (x y : Nat) : List Tree → ℚ → Option ℚ
  | [], S => some S
  | tr :: rest, S =>
    match path_length tr fuel x y with
    | some p => diversityAux fuel x y rest (S + p * tr.length)
    | none => none

/-- `branch_length_diversity(ts, x, y)`: the accumulated sum divided by
`ts.sequence_length`. -/
def branch_length_diversity (ts : TreeSeq) (x y : Nat) (fuel : Nat) : Option ℚ :=
  (diversityAux fuel x y ts.trees 0).map (· / ts.sequence_length)

/-- The amount one tree adds to `S` in `branch_length_Y`: the `if`/`elif` chain
on the three pairwise MRCAs; when no branch fires the tree adds `0`. -/
def yTerm (tr : Tree) (fuel : Nat) (x y z : Nat) : Option ℚ :=
  let xy_mrca := tr.mrca x y
  let xz_mrca := tr.mrca x z
  let yz_mrca := tr.mrca y z
  if xy_mrca = xz_mrca then (path_length tr fuel x yz_mrca).map (· * tr.length)
  else if xy_mrca = yz_mrca then (path_length tr fuel x xz_mrca).map (· * tr.length)
  else if xz_mrca = yz_mrca then (path_length tr fuel x xy_mrca).map (· * tr.length)
  else some 0

/-- The accumulation loop of `branch_length_Y` over the trees. -/
def ySumAux (fuel : Nat) (x y z : Nat) : List Tree → ℚ → Option ℚ
  | [], S => some S
  | tr :: rest, S =>
    match yTerm tr fuel x y z with
    | some t => ySumAux fuel x y z rest (S + t)
    | none => none

/-- `branch_length_Y(ts, x, y, z)`: the accumulated sum divided by
`ts.sequence_length`. -/
def branch_length_Y (ts : TreeSeq) (x y z : Nat) (fuel : Nat) : Option ℚ :=
  (ySumAux fuel x y z ts.trees 0).map (· / ts.sequence_length)

/-- The inclusive ancestor chain of `v` in a tree snapshot, fuel-bounded:
`v`, `parent(v)`, ... up to the root (or until fuel runs out). -/
def ancChainIncl (tr : Tree) : Nat → Nat → List Nat
  | 0, v => [v]
  | fuel+1, v =>
    v :: (match tr.parent v with
          | Int.ofNat p => ancChainIncl tr fuel p
          | Int.negSucc _ => [])

/-- Modelled from the spec: `tr.num_tracked_leaves(node)` (external tree query,
section 4.4): the number of tracked leaves of `group` at or below `node` —
the group members whose inclusive ancestor chain passes through `node`. -/
def num_tracked_leaves (tr : Tree) (fuel : Nat) (group : List Nat) (node : Nat) : Nat :=
  (group.filter (fun v => node ∈ ancChainIncl tr fuel v)).length

/-- The count vector `x = [tr.num_tracked_leaves(node) for tr in trs]` of
`branch_stats_node_iter`. -/
def countVec (tr : Tree) (fuel : Nat) (leaf_sets : List (List Nat)) (node : Nat) : Vec :=
  leaf_sets.map (fun a => (num_tracked_leaves tr fuel a node : Int))

/-- The `method='length'` inner loop of `branch_stats_node_iter` over one
tree's nodes: skip the root, and add `branch_length(node) * tr_len` for each
node whose count vector satisfies the condition. -/
def lengthNodeSum (tr : Tree) (fuel : Nat) (leaf_sets : List (List Nat))
    (condition : Vec → Bool) : List Nat → ℚ
  | [] => 0
  | node :: rest =>
    (if node ≠ tr.root ∧ condition (countVec tr fuel leaf_sets node) = true
     then branchLength tr node * tr.length
     else 0)
      + lengthNodeSum tr fuel leaf_sets condition rest

/-- The `count_nodes` dictionary of the `method='mutations'` branch: every
non-root node mapped to its condition value. -/
def count_nodes (tr : Tree) (fuel : Nat) (leaf_sets : List (List Nat))
    (condition : Vec → Bool) : List (Nat × Bool) :=
  (tr.nodes.filter (fun n => n ≠ tr.root)).map
    (fun n => (n, condition (countVec tr fuel leaf_sets n)))

/-- The mutation loop of the `method='mutations'` branch: `S += 1` for each
mutation sitting on a node whose `count_nodes` entry is true; a mutation on a
node absent from the dictionary is Python's `KeyError`. -/
def mutSumAux (cn : List (Nat × Bool)) : List Nat → Nat → Except String Nat
  | [], S => Except.ok S
  | m :: rest, S =>
    match cn.lookup m with
    | some b => mutSumAux cn rest (if b then S + 1 else S)
    | none => Except.error "KeyError"

/-- The per-tree loop of `branch_stats_node_iter`, accumulating `S`. -/
def nodeIterAux (leaf_sets : List (List Nat)) (condition : Vec → Bool)
    (method : String) (fuel : Nat) : List Tree → ℚ → Except String ℚ
  | [], S => Except.ok S
  | tr :: rest, S =>
    if method = "length" then
      nodeIterAux leaf_sets condition method fuel rest
        (S + lengthNodeSum tr fuel leaf_sets condition tr.nodes)
    else if method = "mutations" then
      match mutSumAux (count_nodes tr fuel leaf_sets condition) tr.mutations 0 with
      | Except.ok c => nodeIterAux leaf_sets condition method fuel rest (S + (c : ℚ))
      | Except.error e => Except.error e
    else
      Except.error ("Unknown method " ++ method)

/-- `branch_stats_node_iter(ts, leaf_sets, condition, method)`: the naive
per-tree traversal, with the final `S /= ts.get_sequence_length()`. -/
def branch_stats_node_iter (ts : TreeSeq) (leaf_sets : List (List Nat))
    (condition : Vec → Bool) (method : String) (fuel : Nat) : Except String ℚ :=
  (nodeIterAux leaf_sets condition method fuel ts.trees 0).map (· / ts.sequence_length)

/-- A coalescence record `(node, children, time)` as yielded inside the
`records_out` / `records_in` lists of `ts.diffs()`. -/
structure DiffRec where
  node : Nat
  children : List Nat
  rtime : ℚ

/-- One diff event `(length, records_out, records_in)` of `ts.diffs()`. -/
structure DiffEvent where
  elength : ℚ
  records_out : List DiffRec
  records_in : List DiffRec

/-- Modelled from the spec: the diff-event source of section 6 (external to
this module) — `ts.num_nodes`, `ts.get_sequence_length()`, and `ts.diffs()`
producing `(interval_length, records_out, records_in)` in left-to-right
genomic order; the spec fixes no order of the records within one event
beyond "one edge at a time, in the order supplied". -/
structure DiffTS where
  num_nodes : Nat
  sequence_length : ℚ
  diffs : List DiffEvent

/-- The working state of `branch_stats`: the arrays `pi`, `node_time`, `X`
(sized `N = ts.num_nodes`) and the running qualifying length `L`. -/
structure EState where
  N : Nat
  pi : Nat → Int
  node_time : Nat → ℚ
  X : Nat → Vec
  L : ℚ

/-- Read a length-`N` Python list at a possibly negative index (Python's
negative indexing: `a[-k]` is `a[N-k]`).  `branch_stats` only indexes
`node_time` with a negative value (namely `pi[child] == -1`) on a malformed
stream that removes an edge whose child is already detached. -/
def iGet (f : Nat → ℚ) (N : Nat) : Int → ℚ
  | Int.ofNat k => f k
  | Int.negSucc k => f (N - (k + 1))

/-- One iteration of the `for child in children` loop of a `records_out`
record: drop the child's branch from `L` if its counts qualify, then detach it
(`pi[child] = -1`). -/
def outChildStep (condition : Vec → Bool) (s : EState) (child : Nat) : EState :=
  let s1 :=
    if condition (s.X child) = true then
      { s with L := s.L - (iGet s.node_time s.N (s.pi child) - s.node_time child) }
    else s
  { s1 with pi := upd s1.pi child (-1) }

/-- The whole `for child in children` loop of a `records_out` record. -/
def outChildren (condition : Vec → Bool) : EState → List Nat → EState
  | s, [] => s
  | s, c :: rest => outChildren condition (outChildStep condition s c) rest

/-- The upward-propagation `while u != -1` loop of the `records_out` branch:
subtract `X[node]` (re-read every iteration, like the Python `X[node][k]`)
from each ancestor's counts and adjust `L` when the condition flips, skipping
the `L` adjustment when the ancestor has no parent (`next_u == -1`).  The
Python loop's trailing `next_u = pi[next_u]` at `next_u == -1` computes
`pi[-1]`, a value the loop never uses; the recursion reads `pi[u]` at the
start of each iteration instead, which yields the same trace. -/
def propagateOut (condition : Vec → Bool) (node : Nat) : Nat → EState → Int → EState
  | 0, s, _ => s
  | _+1, s, Int.negSucc _ => s
  | fuel+1, s, Int.ofNat un =>
    let old_f := condition (s.X un)
    let newv := vSub (s.X un) (s.X node)
    let new_f := condition newv
    let next_u := s.pi un
    let L' :=
      if next_u ≠ -1 then
        if old_f = true ∧ new_f = false then
          s.L - (iGet s.node_time s.N next_u - s.node_time un)
        else if new_f = true ∧ old_f = false then
          s.L + (iGet s.node_time s.N next_u - s.node_time un)
        else s.L
      else s.L
    propagateOut condition node fuel { s with X := upd s.X un newv, L := L' } next_u

/-- The `if pi[node] != -1 and condition(X[node])` step of a `records_out`
record: drop the record's own node's branch from `L` when it is attached and
qualifies. -/
def outNodeAdj (condition : Vec → Bool) (s : EState) (node : Nat) : EState :=
  if s.pi node ≠ -1 ∧ condition (s.X node) = true then
    { s with L := s.L - (iGet s.node_time s.N (s.pi node) - s.node_time node) }
  else s

/-- Processing one `records_out` record `(node, children, time)`:
the children loop, the node's own branch removal when it is attached and
qualifies, the upward propagation from `pi[node]`, and finally
`X[node] = [0]*g`. -/
def processOutRec (g : Nat) (condition : Vec → Bool) (fuel : Nat)
    (s : EState) (r : DiffRec) : EState :=
  let s1 := outChildren condition s r.children
  let s2 := outNodeAdj condition s1 r.node
  let u := s2.pi r.node
  let s3 := if u ≠ -1 then propagateOut condition r.node fuel s2 u else s2
  { s3 with X := upd s3.X r.node (zeroVec g) }

/-- One iteration of the `for child in children` loop of a `records_in`
record: add the child's branch to `L` if its counts qualify, attach it
(`pi[child] = node`), and accumulate its counts into `dx`. -/
def inChildStep (condition : Vec → Bool) (node : Nat)
    (s : EState × Vec) (child : Nat) : EState × Vec :=
  let st := s.1
  let st1 :=
    if condition (st.X child) = true then
      { st with L := st.L + (st.node_time node - st.node_time child) }
    else st
  let st2 := { st1 with pi := upd st1.pi child (Int.ofNat node) }
  (st2, vAdd s.2 (st2.X child))

/-- The whole `for child in children` loop of a `records_in` record. -/
def inChildren (condition : Vec → Bool) (node : Nat) :
    EState × Vec → List Nat → EState × Vec
  | s, [] => s
  | s, c :: rest => inChildren condition node (inChildStep condition node s c) rest

/-- The upward-propagation `while u != -1` loop of the `records_in` branch:
identical to `propagateOut` except that the fixed snapshot `dx` is added to
each ancestor's counts. -/
def propagateIn (condition : Vec → Bool) (dx : Vec) : Nat → EState → Int → EState
  | 0, s, _ => s
  | _+1, s, Int.negSucc _ => s
  | fuel+1, s, Int.ofNat un =>
    let old_f := condition (s.X un)
    let newv := vAdd (s.X un) dx
    let new_f := condition newv
    let next_u := s.pi un
    let L' :=
      if next_u ≠ -1 then
        if old_f = true ∧ new_f = false then
          s.L - (iGet s.node_time s.N next_u - s.node_time un)
        else if new_f = true ∧ old_f = false then
          s.L + (iGet s.node_time s.N next_u - s.node_time un)
        else s.L
      else s.L
    propagateIn condition dx fuel { s with X := upd s.X un newv, L := L' } next_u

/-- The `if pi[node] != -1 and condition(X[node])` step of a `records_in`
record: add the record's own node's branch to `L` when it is attached and
qualifies. -/
def inNodeAdj (condition : Vec → Bool) (s : EState) (node : Nat) : EState :=
  if s.pi node ≠ -1 ∧ condition (s.X node) = true then
    { s with L := s.L + (iGet s.node_time s.N (s.pi node) - s.node_time node) }
  else s

/-- Processing one `records_in` record `(node, children, time)`: record the
node's time, run the children loop accumulating `dx`, set `X[node] = dx`, add
the node's own branch when it is attached and qualifies, and propagate `dx`
upward from `pi[node]`. -/
def processInRec (g : Nat) (condition : Vec → Bool) (fuel : Nat)
    (s : EState) (r : DiffRec) : EState :=
  let s0 := { s with node_time := upd s.node_time r.node r.rtime }
  let sdx := inChildren condition r.node (s0, zeroVec g) r.children
  let s1 := sdx.1
  let dx := sdx.2
  let s2 := { s1 with X := upd s1.X r.node dx }
  let s3 := inNodeAdj condition s2 r.node
  let u := s3.pi r.node
  if u ≠ -1 then propagateIn condition dx fuel s3 u else s3

/-- The `for node,children,time in records_out` loop of one diff event. -/
def processRecsOut (g : Nat) (condition : Vec → Bool) (fuel : Nat) :
    EState → List DiffRec → EState
  | s, [] => s
  | s, r :: rest => processRecsOut g condition fuel (processOutRec g condition fuel s r) rest

/-- The `for node,children,time in records_in` loop of one diff event. -/
def processRecsIn (g : Nat) (condition : Vec → Bool) (fuel : Nat) :
    EState → List DiffRec → EState
  | s, [] => s
  | s, r :: rest => processRecsIn g condition fuel (processInRec g condition fuel s r) rest

/-- One diff event: all `records_out`, then all `records_in`. -/
def processEvent (g : Nat) (condition : Vec → Bool) (fuel : Nat)
    (s : EState) (ev : DiffEvent) : EState :=
  processRecsIn g condition fuel (processRecsOut g condition fuel s ev.records_out)
    ev.records_in

/-- The `for length,records_out,records_in in ts.diffs()` loop of
`branch_stats`, accumulating `S += L * length` after each event. -/
def runDiffs (g : Nat) (condition : Vec → Bool) (fuel : Nat) :
    EState → ℚ → List DiffEvent → EState × ℚ
  | s, S, [] => (s, S)
  | s, S, ev :: rest =>
    let s' := processEvent g condition fuel s ev
    runDiffs g condition fuel s' (S + s'.L * ev.elength) rest

/-- The initial state of `branch_stats`: every node detached, all times `0`,
`X[u] = [int(u in a) for a in leaf_sets]`, `L = 0`. -/
def initState (ts : DiffTS) (leaf_sets : List (List Nat)) : EState :=
  { N := ts.num_nodes
    pi := fun _ => -1
    node_time := fun _ => 0
    X := fun u => leaf_sets.map (fun a => if u ∈ a then (1 : Int) else 0)
    L := 0 }

/-- `branch_stats(ts, leaf_sets, condition)` (the incremental engine,
`method='length'` only): run the diff stream and return
`S / ts.get_sequence_length()`. -/
def branch_stats (ts : DiffTS) (leaf_sets : List (List Nat))
    (condition : Vec → Bool) (fuel : Nat) : ℚ :=
  (runDiffs leaf_sets.length condition fuel (initState ts leaf_sets) 0 ts.diffs).2
    / ts.sequence_length

/-- The `L` value the spec's invariant prescribes for an engine state: the sum
of `node_time[pi[u]] - node_time[u]` over the attached (non-root) nodes `u`
whose current count vector satisfies the condition. -/
def specL (condition : Vec → Bool) (s : EState) : ℚ :=
  ((List.range s.N).map (fun u =>
    if 0 ≤ s.pi u ∧ condition (s.X u) = true then
      s.node_time (s.pi u).toNat - s.node_time u
    else 0)).sum

/-- The inclusive ancestor chain of `v` in the parent-pointer forest `pi`,
fuel-bounded. -/
def piChainIncl (pi : Nat → Int) : Nat → Nat → List Nat
  | 0, v => [v]
  | fuel+1, v => v :: (if 0 ≤ pi v then piChainIncl pi fuel (pi v).toNat else [])

/-- The count vector the spec's invariant prescribes for node `u` in the
parent-pointer forest `pi`: for each group, the number of its members whose
inclusive ancestor chain passes through `u`. -/
def specXVec (leaf_sets : List (List Nat)) (pi : Nat → Int) (fuel : Nat) (u : Nat) : Vec :=
  leaf_sets.map (fun a => ((a.filter (fun v => u ∈ piChainIncl pi fuel v)).length : Int))

/-- The strict ancestor list walked upward from the (possibly `-1`) start
value `u` in the forest `pi`: the exact sequence of array indices the
propagation loops visit. -/
def ancList (pi : Nat → Int) : Nat → Int → List Nat
  | 0, _ => []
  | _+1, Int.negSucc _ => []
  | fuel+1, Int.ofNat un => un :: ancList pi fuel (pi un)

/-- The list of nodes one `while u != mrca` walk of `path_length` visits
(start included, `m` excluded), fuel-bounded like `walkSum`. -/
def visitChain (tr : Tree) : Nat → Int → Nat → Option (List Nat)
  | 0, u, m => if u = (m : Int) then some [] else none
  | fuel+1, u, m =>
    if u = (m : Int) then some []
    else
      match u with
      | Int.ofNat un => (visitChain tr fuel (tr.parent un) m).map (un :: ·)
      | Int.negSucc _ => none

/-- The always-true condition predicate. -/
def condTrue : Vec → Bool := fun _ => true

/-- Leaf groups `[[0]]`: the single group containing sample `0`. -/
def exGroups : List (List Nat) := [[0]]

/-- Diff stream of a two-tree sequence over `[0,2)` with samples `0,1,2`:
tree `((0,1)3,2)4` on `[0,1)` (times `3 ↦ 1`, `4 ↦ 2`) and tree
`((1,2)5,0)6` on `[1,2)` (times `5 ↦ 1`, `6 ↦ 2`).  Records within each
event are listed in increasing time order (children's records first). -/
def exDiffTS : DiffTS :=
  { num_nodes := 7
    sequence_length := 2
    diffs :=
      [ ⟨1, [], [⟨3, [0, 1], 1⟩, ⟨4, [2, 3], 2⟩]⟩,
        ⟨1, [⟨3, [0, 1], 1⟩, ⟨4, [2, 3], 2⟩], [⟨5, [1, 2], 1⟩, ⟨6, [0, 5], 2⟩]⟩ ] }

/-- The first tree `((0,1)3,2)4` of the two-tree sequence, materialized for
the naive traversal. -/
def exTree1 : Tree :=
  { nodes := [0, 1, 2, 3, 4]
    root := 4
    parent := fun u =>
      if u = 0 then 3 else if u = 1 then 3 else if u = 2 then 4
      else if u = 3 then 4 else -1
    time := fun u => if u = 3 then 1 else if u = 4 then 2 else 0
    length := 1
    mutations := []
    mrca := fun a b =>
      if a = b then a
      else if (a = 0 ∧ b = 1) ∨ (a = 1 ∧ b = 0) ∨ a = 3 ∨ b = 3 then 3 else 4 }

/-- The second tree `((1,2)5,0)6` of the two-tree sequence. -/
def exTree2 : Tree :=
  { nodes := [0, 1, 2, 5, 6]
    root := 6
    parent := fun u =>
      if u = 1 then 5 else if u = 2 then 5 else if u = 0 then 6
      else if u = 5 then 6 else -1
    time := fun u => if u = 5 then 1 else if u = 6 then 2 else 0
    length := 1
    mutations := []
    mrca := fun a b =>
      if a = b then a
      else if (a = 1 ∧ b = 2) ∨ (a = 2 ∧ b = 1) ∨ a = 5 ∨ b = 5 then 5 else 6 }

/-- The two-tree sequence of `exDiffTS`, materialized for the naive
traversal. -/
def exNaiveTS : TreeSeq := { trees := [exTree1, exTree2], sequence_length := 2 }

/-- The engine state after both diff events of `exDiffTS` with the always-true
condition on groups `[[0]]`. -/
def exState2 : EState :=
  (runDiffs 1 condTrue 10 (initState exDiffTS exGroups) 0 exDiffTS.diffs).1

/-- A star tree: leaves `0,1,2` all attached to root `3` (time `1`), span
`[0,1)`; every pairwise MRCA of the three leaves is `3`. -/
def starTree : Tree :=
  { nodes := [0, 1, 2, 3]
    root := 3
    parent := fun u => if u = 3 then -1 else if u ≤ 2 then 3 else -1
    time := fun u => if u = 3 then 1 else 0
    length := 1
    mutations := []
    mrca := fun a b => if a = b then a else 3 }

/-- The single-tree sequence containing only `starTree`. -/
def starTS : TreeSeq := { trees := [starTree], sequence_length := 1 }

/-- A single-tree sequence over `[0,2)`: leaves `0,1` under root `2`
(time `1`), with one mutation sitting on node `0`. -/
def mutTree : Tree :=
  { nodes := [0, 1, 2]
    root := 2
    parent := fun u => if u = 0 then 2 else if u = 1 then 2 else -1
    time := fun u => if u = 2 then 1 else 0
    length := 2
    mutations := [0]
    mrca := fun a b => if a = b then a else 2 }

/-- The single-tree sequence containing only `mutTree`. -/
def mutTS : TreeSeq := { trees := [mutTree], sequence_length := 2 }

/-- The condition "the group-0 count is exactly 1". -/
def condHeadOne : Vec → Bool := fun v => v.headI = 1

/-- The total number of qualifying mutations over a list of trees: per tree,
the mutations sitting on nodes whose count vector satisfies the condition. -/
def mutTotal (leaf_sets : List (List Nat)) (condition : Vec → Bool) (fuel : Nat) :
    List Tree → Nat
  | [] => 0
  | tr :: rest =>
    (tr.mutations.filter (fun n => condition (countVec tr fuel leaf_sets n))).length
      + mutTotal leaf_sets condition fuel rest

/-- A mid-run engine state over two groups `[[0],[1]]`: leaf `0` is attached
to node `3`, node `3` and leaf `1` and node `5` to root `4`; times
`3 ↦ 1`, `4 ↦ 2`, `5 ↦ 3/2`. -/
def exFrameState : EState :=
  { N := 6
    pi := fun u =>
      if u = 0 then 3 else if u = 1 then 4 else if u = 3 then 4
      else if u = 5 then 4 else -1
    node_time := fun u =>
      if u = 3 then 1 else if u = 4 then 2 else if u = 5 then 3/2 else 0
    X := fun u =>
      if u = 0 then [1, 0] else if u = 1 then [0, 1] else if u = 3 then [1, 0]
      else if u = 4 then [1, 1] else [0, 0]
    L := 0 }

/-- Helper: an update at an index overwrites an earlier update at the same
index. -/
theorem upd_upd {α : Type} (f : Nat → α) (i : Nat) (a b : α) :
    upd (upd f i a) i b = upd f i b := by
  funext j
  simp only [upd]
  split <;> rfl

/-- Helper: the walk from `m` to `m` ends immediately with sum `0`. -/
theorem walkSum_self (tr : Tree) (fuel : Nat) (m : Nat) :
    walkSum tr fuel (m : Int) m = some 0 := by
  cases fuel <;> simp [walkSum]

/-- C10: `path_length(tr, x, x)` is `0`: both arguments share the MRCA `x`
itself, so neither upward walk executes. -/
theorem path_length_self (tr : Tree) (fuel : Nat) (x : Nat) (h : tr.mrca x x = x) :
    path_length tr fuel x x = some 0 := by
  unfold path_length
  rw [h, walkSum_self]
  norm_num

/-- Witness for C10 at `exTree1`, leaf `0`. -/
theorem path_length_self_witness :
    exTree1.mrca 0 0 = 0 ∧ path_length exTree1 5 0 0 = some 0 :=
  ⟨rfl, path_length_self exTree1 5 0 rfl⟩

/-- Helper: `path_length` is symmetric in its two leaves whenever the external
`mrca` query is. -/
theorem path_length_symm (tr : Tree) (fuel : Nat) (x y : Nat)
    (h : tr.mrca x y = tr.mrca y x) :
    path_length tr fuel x y = path_length tr fuel y x := by
  unfold path_length
  rw [h]
  cases walkSum tr fuel (x : Int) (tr.mrca y x) <;>
    cases walkSum tr fuel (y : Int) (tr.mrca y x) <;>
    simp [add_comm]

/-- Helper: the diversity accumulation loop is symmetric in the two leaves
whenever every tree's `mrca` query is. -/
theorem diversityAux_symm (fuel : Nat) (x y : Nat) (l : List Tree)
    (h : ∀ tr ∈ l, tr.mrca x y = tr.mrca y x) :
    ∀ S, diversityAux fuel x y l S = diversityAux fuel y x l S := by
  induction l with
  | nil => intro S; rfl
  | cons tr rest ih =>
    intro S
    have h1 : tr.mrca x y = tr.mrca y x := h tr (List.mem_cons_self tr rest)
    have hrest : ∀ tr' ∈ rest, tr'.mrca x y = tr'.mrca y x :=
      fun tr' h' => h tr' (List.mem_cons_of_mem tr h')
    simp only [diversityAux, path_length_symm tr fuel x y h1]
    cases path_length tr fuel y x <;> simp [ih hrest]

/-- C8: `branch_length_diversity(ts, x, y) = branch_length_diversity(ts, y, x)`
(given that the external `mrca` query is symmetric on every tree). -/
theorem branch_length_diversity_symm (ts : TreeSeq) (x y : Nat) (fuel : Nat)
    (h : ∀ tr ∈ ts.trees, tr.mrca x y = tr.mrca y x) :
    branch_length_diversity ts x y fuel = branch_length_diversity ts y x fuel := by
  unfold branch_length_diversity
  rw [diversityAux_symm fuel x y ts.trees h 0]

/-- Witness for C8 at the two-tree sequence and leaves `0, 1`. -/
theorem branch_length_diversity_symm_witness :
    (∀ tr ∈ exNaiveTS.trees, tr.mrca 0 1 = tr.mrca 1 0) ∧
      branch_length_diversity exNaiveTS 0 1 5 = branch_length_diversity exNaiveTS 1 0 5 := by
  have h : ∀ tr ∈ exNaiveTS.trees, tr.mrca 0 1 = tr.mrca 1 0 := by
    intro tr htr
    simp only [exNaiveTS, List.mem_cons, List.not_mem_nil, or_false] at htr
    rcases htr with rfl | rfl <;> rfl
  exact ⟨h, branch_length_diversity_symm exNaiveTS 0 1 5 h⟩

/-- Helper: when every tree's `path_length` succeeds, the diversity loop
returns the accumulator plus the sum of the per-tree contributions. -/
theorem diversityAux_spec (fuel : Nat) (x y : Nat) (l : List Tree)
    (h : ∀ tr ∈ l, path_length tr fuel x y ≠ none) :
    ∀ S, diversityAux fuel x y l S
      = some (S + (l.map (fun tr => (path_length tr fuel x y).getD 0 * tr.length)).sum) := by
  induction l with
  | nil => intro S; simp [diversityAux]
  | cons tr rest ih =>
    intro S
    rcases hpl : path_length tr fuel x y with _ | p
    · exact absurd hpl (h tr (List.mem_cons_self tr rest))
    · simp only [diversityAux, hpl]
      rw [ih (fun tr' h' => h tr' (List.mem_cons_of_mem tr h')) (S + p * tr.length)]
      simp only [List.map_cons, List.sum_cons, hpl, Option.getD_some, Option.some.injEq]
      ring

/-- C7: `branch_length_diversity` is the sum over the tree snapshots of
`path_length(tr, x, y) * tr.length`, divided by the total sequence length. -/
theorem branch_length_diversity_spec (ts : TreeSeq) (x y : Nat) (fuel : Nat)
    (h : ∀ tr ∈ ts.trees, path_length tr fuel x y ≠ none) :
    branch_length_diversity ts x y fuel
      = some ((ts.trees.map (fun tr => (path_length tr fuel x y).getD 0 * tr.length)).sum
          / ts.sequence_length) := by
  unfold branch_length_diversity
  rw [diversityAux_spec fuel x y ts.trees h 0]
  simp

/-- Witness for C7 at the two-tree sequence and leaves `0, 1`: the result is
`(2*1 + 4*1)/2 = 3`. -/
theorem branch_length_diversity_spec_witness :
    (∀ tr ∈ exNaiveTS.trees, path_length tr 5 0 1 ≠ none) ∧
      branch_length_diversity exNaiveTS 0 1 5 = some 3 := by
  have h : ∀ tr ∈ exNaiveTS.trees, path_length tr 5 0 1 ≠ none := by
    intro tr htr
    simp only [exNaiveTS, List.mem_cons, List.not_mem_nil, or_false] at htr
    rcases htr with rfl | rfl <;>
      simp [path_length, walkSum, branchLength, exTree1, exTree2]
  refine ⟨h, ?_⟩
  rw [branch_length_diversity_spec exNaiveTS 0 1 5 h]
  norm_num [path_length, walkSum, branchLength, exNaiveTS, exTree1, exTree2]

/-- C3 fails on the code: on a star tree all three pairwise MRCAs are equal,
so the first `if xy_mrca == xz_mrca` branch fires and the tree contributes
`path_length(tr, x, yz_mrca) * tr.length = 1`, not `0`. -/
theorem branch_length_Y_star_counterexample :
    starTree.mrca 0 1 = starTree.mrca 0 2 ∧ starTree.mrca 0 2 = starTree.mrca 1 2 ∧
      yTerm starTree 5 0 1 2 = some 1 ∧ yTerm starTree 5 0 1 2 ≠ some 0 ∧
      branch_length_Y starTS 0 1 2 5 = some 1 := by
  refine ⟨rfl, rfl, ?_, ?_, ?_⟩ <;>
    norm_num [yTerm, branch_length_Y, ySumAux, starTS, starTree, path_length,
      walkSum, branchLength]

/-- C3 amended: when all three pairwise MRCAs of `x, y, z` are equal to `m`,
the first branch of `branch_length_Y` fires, and the tree contributes
`path_length(tr, x, m) * tr.length` — the branch length from `x` up to the
shared MRCA — rather than `0`. -/
theorem yTerm_star (tr : Tree) (fuel : Nat) (x y z m : Nat) (d : ℚ)
    (hxy : tr.mrca x y = m) (hxz : tr.mrca x z = m) (hyz : tr.mrca y z = m)
    (hxm : tr.mrca x m = m) (hwalk : walkSum tr fuel (x : Int) m = some d) :
    yTerm tr fuel x y z = some (d * tr.length) := by
  simp only [yTerm, hxy, hxz, hyz, if_pos rfl]
  unfold path_length
  rw [hxm, hwalk, walkSum_self]
  norm_num

/-- Witness for C3's amended claim at the star tree: the contribution is the
unit-length branch from leaf `0` up to the root. -/
theorem yTerm_star_witness :
    starTree.mrca 0 1 = 3 ∧ starTree.mrca 0 2 = 3 ∧ starTree.mrca 1 2 = 3 ∧
      starTree.mrca 0 3 = 3 ∧ walkSum starTree 5 (0 : Int) 3 = some 1 ∧
      yTerm starTree 5 0 1 2 = some (1 * starTree.length) := by
  have hwalk : walkSum starTree 5 (0 : Int) 3 = some 1 := by
    norm_num [walkSum, branchLength, starTree]
  exact ⟨rfl, rfl, rfl, rfl, hwalk, yTerm_star starTree 5 0 1 2 3 1 rfl rfl rfl rfl hwalk⟩

/-- C5: any `method` other than `'length'` and `'mutations'` makes
`branch_stats_node_iter` stop at the first tree with the `TypeError`
`"Unknown method " + method`, producing no partial result (every tree
sequence has at least one tree, since the diff intervals concatenate to the
positive sequence length). -/
theorem node_iter_unknown_method (ts : TreeSeq) (leaf_sets : List (List Nat))
    (condition : Vec → Bool) (method : String) (fuel : Nat)
    (htrees : ts.trees ≠ []) (h1 : method ≠ "length") (h2 : method ≠ "mutations") :
    branch_stats_node_iter ts leaf_sets condition method fuel
      = Except.error ("Unknown method " ++ method) := by
  rcases hts : ts.trees with _ | ⟨tr, rest⟩
  · exact absurd hts htrees
  · unfold branch_stats_node_iter
    rw [hts]
    simp only [nodeIterAux, if_neg h1, if_neg h2]
    rfl

/-- Witness for C5 at the single-tree sequence and `method = "foo"`. -/
theorem node_iter_unknown_method_witness :
    mutTS.trees ≠ [] ∧ ("foo" : String) ≠ "length" ∧ ("foo" : String) ≠ "mutations" ∧
      branch_stats_node_iter mutTS exGroups condHeadOne "foo" 5
        = Except.error ("Unknown method " ++ "foo") := by
  have h0 : mutTS.trees ≠ [] := by simp [mutTS]
  have ha : ("foo" : String) ≠ "length" := by decide
  have hb : ("foo" : String) ≠ "mutations" := by decide
  exact ⟨h0, ha, hb, node_iter_unknown_method mutTS exGroups condHeadOne "foo" 5 h0 ha hb⟩

/-- C4 fails on the code: with one qualifying mutation and sequence length
`2`, the `'mutations'` method returns `1/2`, not the unweighted total `1` —
the final `S /= ts.get_sequence_length()` applies to this method too. -/
theorem node_iter_mutations_counterexample :
    branch_stats_node_iter mutTS exGroups condHeadOne "mutations" 5 = Except.ok (1/2) ∧
      ((1 : ℚ)/2) ≠ 1 := by
  have hne : ("mutations" : String) ≠ "length" := by decide
  constructor
  · norm_num [branch_stats_node_iter, nodeIterAux, mutSumAux, count_nodes, countVec,
      num_tracked_leaves, ancChainIncl, mutTS, mutTree, exGroups, condHeadOne,
      List.filter, List.lookup, Except.map, if_neg hne]
  · norm_num

/-- Helper: looking up a key in an association list built by pairing every
element of a list with a function value returns that function value. -/
theorem lookup_map_pair {β : Type} (f : Nat → β) :
    ∀ (l : List Nat) (n : Nat), n ∈ l →
      (l.map (fun x => (x, f x))).lookup n = some (f n) := by
  intro l
  induction l with
  | nil => intro n h; cases h
  | cons a rest ih =>
    intro n h
    by_cases hn : n = a
    · subst hn; simp [List.lookup]
    · have hmem : n ∈ rest := by
        rcases List.mem_cons.mp h with h' | h'
        · exact absurd h' hn
        · exact h'
      have hb : (n == a) = false := beq_eq_false_iff_ne.mpr hn
      simpa [List.lookup, hb] using ih n hmem

/-- Helper: the `count_nodes` dictionary answers every non-root node of the
tree with the condition value of its count vector. -/
theorem count_nodes_lookup (tr : Tree) (fuel : Nat) (leaf_sets : List (List Nat))
    (condition : Vec → Bool) (n : Nat) (hmem : n ∈ tr.nodes) (hroot : n ≠ tr.root) :
    (count_nodes tr fuel leaf_sets condition).lookup n
      = some (condition (countVec tr fuel leaf_sets n)) := by
  apply lookup_map_pair
  simp [List.mem_filter, hmem, hroot]

/-- Helper: when every mutation sits on a non-root node of the tree, the
mutation loop returns the accumulator plus the number of qualifying
mutations. -/
theorem mutSumAux_spec (tr : Tree) (fuel : Nat) (leaf_sets : List (List Nat))
    (condition : Vec → Bool) :
    ∀ (muts : List Nat) (S : Nat),
      (∀ n ∈ muts, n ∈ tr.nodes ∧ n ≠ tr.root) →
      mutSumAux (count_nodes tr fuel leaf_sets condition) muts S
        = Except.ok
            (S + (muts.filter (fun n => condition (countVec tr fuel leaf_sets n))).length) := by
  intro muts
  induction muts with
  | nil => intro S h; simp [mutSumAux]
  | cons m rest ih =>
    intro S h
    obtain ⟨hm, hr⟩ := h m (List.mem_cons_self m rest)
    have hrest : ∀ n ∈ rest, n ∈ tr.nodes ∧ n ≠ tr.root :=
      fun n hn => h n (List.mem_cons_of_mem m hn)
    simp only [mutSumAux, count_nodes_lookup tr fuel leaf_sets condition m hm hr]
    rw [ih _ hrest]
    cases hc : condition (countVec tr fuel leaf_sets m) <;>
      (simp [List.filter, hc]; try omega)

/-- Helper: the per-tree loop of the `'mutations'` method accumulates the
qualifying mutation counts of the trees. -/
theorem nodeIterAux_mutations (leaf_sets : List (List Nat)) (condition : Vec → Bool)
    (fuel : Nat) :
    ∀ (l : List Tree) (S : ℚ),
      (∀ tr ∈ l, ∀ n ∈ tr.mutations, n ∈ tr.nodes ∧ n ≠ tr.root) →
      nodeIterAux leaf_sets condition "mutations" fuel l S
        = Except.ok (S + (mutTotal leaf_sets condition fuel l : ℚ)) := by
  intro l
  induction l with
  | nil => intro S h; simp [nodeIterAux, mutTotal]
  | cons tr rest ih =>
    intro S h
    have htr : ∀ n ∈ tr.mutations, n ∈ tr.nodes ∧ n ≠ tr.root :=
      h tr (List.mem_cons_self tr rest)
    have hrest : ∀ tr' ∈ rest, ∀ n ∈ tr'.mutations, n ∈ tr'.nodes ∧ n ≠ tr'.root :=
      fun tr' h' => h tr' (List.mem_cons_of_mem tr h')
    rw [show nodeIterAux leaf_sets condition "mutations" fuel (tr :: rest) S
        = (if ("mutations" : String) = "length" then
            nodeIterAux leaf_sets condition "mutations" fuel rest
              (S + lengthNodeSum tr fuel leaf_sets condition tr.nodes)
          else if ("mutations" : String) = "mutations" then
            match mutSumAux (count_nodes tr fuel leaf_sets condition) tr.mutations 0 with
            | Except.ok c => nodeIterAux leaf_sets condition "mutations" fuel rest (S + (c : ℚ))
            | Except.error e => Except.error e
          else Except.error ("Unknown method " ++ "mutations")) from rfl]
    rw [if_neg (by decide), if_pos rfl, mutSumAux_spec tr fuel leaf_sets condition tr.mutations 0 htr]
    simp only []
    rw [ih _ hrest]
    simp only [mutTotal, Except.ok.injEq]
    push_cast
    ring

/-- C4 amended: the `'mutations'` method returns the total number of
mutations on qualifying nodes with no per-tree span weighting, but the final
division by the sequence length still applies: the result is
`total / sequence_length`, not the raw total. -/
theorem node_iter_mutations_spec (ts : TreeSeq) (leaf_sets : List (List Nat))
    (condition : Vec → Bool) (fuel : Nat)
    (h : ∀ tr ∈ ts.trees, ∀ n ∈ tr.mutations, n ∈ tr.nodes ∧ n ≠ tr.root) :
    branch_stats_node_iter ts leaf_sets condition "mutations" fuel
      = Except.ok ((mutTotal leaf_sets condition fuel ts.trees : ℚ) / ts.sequence_length) := by
  unfold branch_stats_node_iter
  rw [nodeIterAux_mutations leaf_sets condition fuel ts.trees 0 h]
  simp [Except.map]

/-- Witness for C4's amended claim at the single-tree sequence: one
qualifying mutation, sequence length `2`, result `1/2`. -/
theorem node_iter_mutations_spec_witness :
    (∀ tr ∈ mutTS.trees, ∀ n ∈ tr.mutations, n ∈ tr.nodes ∧ n ≠ tr.root) ∧
      mutTotal exGroups condHeadOne 5 mutTS.trees = 1 ∧
      branch_stats_node_iter mutTS exGroups condHeadOne "mutations" 5
        = Except.ok ((mutTotal exGroups condHeadOne 5 mutTS.trees : ℚ)
            / mutTS.sequence_length) := by
  have h : ∀ tr ∈ mutTS.trees, ∀ n ∈ tr.mutations, n ∈ tr.nodes ∧ n ≠ tr.root := by
    intro tr htr
    simp only [mutTS, List.mem_cons, List.not_mem_nil, or_false] at htr
    subst htr
    decide
  exact ⟨h, by decide, node_iter_mutations_spec mutTS exGroups condHeadOne 5 h⟩

/-- Helper: the walk's accumulated sum is the sum of `branch_length` over the
visited chain. -/
theorem walkSum_eq_visitChain (tr : Tree) :
    ∀ (fuel : Nat) (u : Int) (m : Nat),
      walkSum tr fuel u m
        = (visitChain tr fuel u m).map (fun l => (l.map (branchLength tr)).sum) := by
  intro fuel
  induction fuel with
  | zero =>
    intro u m
    by_cases h : u = (m : Int) <;> simp [walkSum, visitChain, h]
  | succ fuel ih =>
    intro u m
    by_cases h : u = (m : Int)
    · simp [walkSum, visitChain, h]
    · cases u with
      | ofNat un =>
        simp only [walkSum, visitChain, if_neg h, ih]
        cases hv : visitChain tr fuel (tr.parent un) m <;> simp [add_comm]
      | negSucc k => simp [walkSum, visitChain, h]

/-- Helper: unfolding equation for `visitChain` at fuel `0`. -/
theorem visitChain_zero (tr : Tree) (u : Int) (m : Nat) :
    visitChain tr 0 u m = if u = (m : Int) then some [] else none := rfl

/-- Helper: unfolding equation for `visitChain` at successor fuel. -/
theorem visitChain_succ (tr : Tree) (fuel : Nat) (u : Int) (m : Nat) :
    visitChain tr (fuel+1) u m
      = if u = (m : Int) then some []
        else
          match u with
          | Int.ofNat un => (visitChain tr fuel (tr.parent un) m).map (un :: ·)
          | Int.negSucc _ => none := rfl

/-- Helper: the visited chain never contains the MRCA itself. -/
theorem visitChain_not_mem (tr : Tree) :
    ∀ (fuel : Nat) (u : Int) (m : Nat) (l : List Nat),
      visitChain tr fuel u m = some l → m ∉ l := by
  intro fuel
  induction fuel with
  | zero =>
    intro u m l hl
    rw [visitChain_zero] at hl
    by_cases h : u = (m : Int)
    · rw [if_pos h] at hl
      obtain rfl := Option.some.inj hl
      exact List.not_mem_nil m
    · rw [if_neg h] at hl
      exact absurd hl (by simp)
  | succ fuel ih =>
    intro u m l hl
    rw [visitChain_succ] at hl
    by_cases h : u = (m : Int)
    · rw [if_pos h] at hl
      obtain rfl := Option.some.inj hl
      exact List.not_mem_nil m
    · rw [if_neg h] at hl
      cases u with
      | ofNat un =>
        simp only [Option.map_eq_some'] at hl
        obtain ⟨l', hl', rfl⟩ := hl
        intro hmem
        rcases List.mem_cons.mp hmem with heq | hmem'
        · exact h (by simp [Int.ofNat_eq_natCast, heq])
        · exact ih (tr.parent un) m l' hl' hmem'
      | negSucc k => exact absurd hl (by simp)

/-- Helper: a successful chain starts at its starting node, or is empty when
the start already is the MRCA. -/
theorem visitChain_shape (tr : Tree) (fuel : Nat) (w : Int) (m : Nat) (l : List Nat)
    (h : visitChain tr fuel w m = some l) :
    (w = (m : Int) ∧ l = []) ∨ ∃ wn l2, w = Int.ofNat wn ∧ l = wn :: l2 := by
  cases fuel with
  | zero =>
    rw [visitChain_zero] at h
    by_cases hw : w = (m : Int)
    · rw [if_pos hw] at h
      exact Or.inl ⟨hw, (Option.some.inj h).symm⟩
    · rw [if_neg hw] at h
      exact absurd h (by simp)
  | succ fuel =>
    rw [visitChain_succ] at h
    by_cases hw : w = (m : Int)
    · rw [if_pos hw] at h
      exact Or.inl ⟨hw, (Option.some.inj h).symm⟩
    · rw [if_neg hw] at h
      cases w with
      | ofNat wn =>
        simp only [Option.map_eq_some'] at h
        obtain ⟨l', _, rfl⟩ := h
        exact Or.inr ⟨wn, l', rfl, rfl⟩
      | negSucc k => exact absurd h (by simp)

/-- Helper: when times strictly increase along parent edges, every node of the
visited chain is strictly more recent than the MRCA — the walk stays strictly
below it. -/
theorem visitChain_time_lt (tr : Tree)
    (hmono : ∀ v p, tr.parent v = Int.ofNat p → tr.time v < tr.time p) :
    ∀ (fuel : Nat) (u : Int) (m : Nat) (l : List Nat),
      visitChain tr fuel u m = some l → ∀ v ∈ l, tr.time v < tr.time m := by
  intro fuel
  induction fuel with
  | zero =>
    intro u m l hl v hv
    rw [visitChain_zero] at hl
    by_cases h : u = (m : Int)
    · rw [if_pos h] at hl
      obtain rfl := Option.some.inj hl
      cases hv
    · rw [if_neg h] at hl
      exact absurd hl (by simp)
  | succ fuel ih =>
    intro u m l hl v hv
    rw [visitChain_succ] at hl
    by_cases h : u = (m : Int)
    · rw [if_pos h] at hl
      obtain rfl := Option.some.inj hl
      cases hv
    · rw [if_neg h] at hl
      cases u with
      | ofNat un =>
        simp only [Option.map_eq_some'] at hl
        obtain ⟨l', hl', rfl⟩ := hl
        rcases List.mem_cons.mp hv with rfl | hv'
        · rcases visitChain_shape tr fuel (tr.parent v) m l' hl' with ⟨hpm, _⟩ | ⟨wn, l2, hw, hl2⟩
          · exact hmono v m hpm
          · have h1 : tr.time v < tr.time wn := hmono v wn hw
            have h2 : tr.time wn < tr.time m :=
              ih (tr.parent v) m l' hl' wn (by rw [hl2]; exact List.mem_cons_self wn l2)
            exact h1.trans h2
        · exact ih (tr.parent un) m l' hl' v hv'
      | negSucc k => exact absurd hl (by simp)

/-- C6: `path_length(tr, x, y)` is the sum of `time(parent(u)) - time(u)`
along the chain from `x` up to (but excluding) the MRCA `m` plus the same sum
along the chain from `y`; neither chain contains `m`, and (when times strictly
increase along parent edges) every visited node is strictly more recent than
`m`, so no node at or above `m`'s parent is visited.  The embedding is a pure
function, so there are no side effects. -/
theorem path_length_spec (tr : Tree) (fuel : Nat) (x y m : Nat) (px py : List Nat)
    (hm : tr.mrca x y = m)
    (hx : visitChain tr fuel (x : Int) m = some px)
    (hy : visitChain tr fuel (y : Int) m = some py)
    (hmono : ∀ v p, tr.parent v = Int.ofNat p → tr.time v < tr.time p) :
    path_length tr fuel x y
        = some ((px.map (branchLength tr)).sum + (py.map (branchLength tr)).sum)
      ∧ m ∉ px ∧ m ∉ py
      ∧ (∀ v ∈ px, tr.time v < tr.time m) ∧ (∀ v ∈ py, tr.time v < tr.time m) := by
  refine ⟨?_, visitChain_not_mem tr fuel (x : Int) m px hx,
    visitChain_not_mem tr fuel (y : Int) m py hy,
    visitChain_time_lt tr hmono fuel (x : Int) m px hx,
    visitChain_time_lt tr hmono fuel (y : Int) m py hy⟩
  unfold path_length
  rw [hm, walkSum_eq_visitChain, walkSum_eq_visitChain, hx, hy]
  rfl

/-- Witness for C6 at `exTree1`, leaves `0` and `2` whose MRCA is the root
`4`: the chains are `[0, 3]` and `[2]`. -/
theorem path_length_spec_witness :
    exTree1.mrca 0 2 = 4 ∧
      visitChain exTree1 5 (0 : Int) 4 = some [0, 3] ∧
      visitChain exTree1 5 (2 : Int) 4 = some [2] ∧
      (∀ v p, exTree1.parent v = Int.ofNat p → exTree1.time v < exTree1.time p) ∧
      path_length exTree1 5 0 2
        = some ((([0, 3] : List Nat).map (branchLength exTree1)).sum
            + (([2] : List Nat).map (branchLength exTree1)).sum) := by
  have hmono : ∀ v p, exTree1.parent v = Int.ofNat p → exTree1.time v < exTree1.time p := by
    intro v p hp
    have hcases : ((v = 0 ∨ v = 1) ∧ p = 3) ∨ ((v = 2 ∨ v = 3) ∧ p = 4) := by
      simp only [exTree1, Int.ofNat_eq_natCast] at hp
      split_ifs at hp <;> omega
    rcases hcases with ⟨hv, rfl⟩ | ⟨hv, rfl⟩ <;> rcases hv with rfl | rfl <;>
      norm_num [exTree1]
  exact ⟨rfl, by decide, by decide, hmono,
    (path_length_spec exTree1 5 0 2 4 [0, 3] [2] rfl (by decide) (by decide) hmono).1⟩

/-- Helper: the out-propagation loop never writes `pi`. -/
theorem propagateOut_pi (condition : Vec → Bool) (node : Nat) :
    ∀ (fuel : Nat) (s : EState) (u : Int), (propagateOut condition node fuel s u).pi = s.pi := by
  intro fuel
  induction fuel with
  | zero => intro s u; rfl
  | succ fuel ih =>
    intro s u
    cases u with
    | negSucc k => rfl
    | ofNat un =>
      simp only [propagateOut]
      rw [ih]

/-- Helper: the in-propagation loop never writes `pi`. -/
theorem propagateIn_pi (condition : Vec → Bool) (dx : Vec) :
    ∀ (fuel : Nat) (s : EState) (u : Int), (propagateIn condition dx fuel s u).pi = s.pi := by
  intro fuel
  induction fuel with
  | zero => intro s u; rfl
  | succ fuel ih =>
    intro s u
    cases u with
    | negSucc k => rfl
    | ofNat un =>
      simp only [propagateIn]
      rw [ih]

/-- Helper: the out-propagation loop writes `X` only at the ancestor indices
it visits, i.e. along `ancList`. -/
theorem propagateOut_X_frame (condition : Vec → Bool) (node : Nat) :
    ∀ (fuel : Nat) (s : EState) (u : Int) (w : Nat),
      w ∉ ancList s.pi fuel u → (propagateOut condition node fuel s u).X w = s.X w := by
  intro fuel
  induction fuel with
  | zero => intro s u w _; rfl
  | succ fuel ih =>
    intro s u w hw
    cases u with
    | negSucc k => rfl
    | ofNat un =>
      rw [show ancList s.pi (fuel+1) (Int.ofNat un) = un :: ancList s.pi fuel (s.pi un)
        from rfl] at hw
      simp only [List.mem_cons, not_or] at hw
      obtain ⟨hwun, hwrest⟩ := hw
      simp only [propagateOut]
      rw [ih]
      · simp [upd, hwun]
      · exact hwrest

/-- Helper: the in-propagation loop writes `X` only along `ancList`. -/
theorem propagateIn_X_frame (condition : Vec → Bool) (dx : Vec) :
    ∀ (fuel : Nat) (s : EState) (u : Int) (w : Nat),
      w ∉ ancList s.pi fuel u → (propagateIn condition dx fuel s u).X w = s.X w := by
  intro fuel
  induction fuel with
  | zero => intro s u w _; rfl
  | succ fuel ih =>
    intro s u w hw
    cases u with
    | negSucc k => rfl
    | ofNat un =>
      rw [show ancList s.pi (fuel+1) (Int.ofNat un) = un :: ancList s.pi fuel (s.pi un)
        from rfl] at hw
      simp only [List.mem_cons, not_or] at hw
      obtain ⟨hwun, hwrest⟩ := hw
      simp only [propagateIn]
      rw [ih]
      · simp [upd, hwun]
      · exact hwrest

/-- Helper: the children loop of an out-record never writes `X`. -/
theorem outChildStep_X (condition : Vec → Bool) (s : EState) (c : Nat) :
    (outChildStep condition s c).X = s.X := by
  simp only [outChildStep]
  split <;> rfl

/-- Helper: the children loop of an out-record detaches exactly the child. -/
theorem outChildStep_pi (condition : Vec → Bool) (s : EState) (c : Nat) :
    (outChildStep condition s c).pi = upd s.pi c (-1) := by
  simp only [outChildStep]
  split <;> rfl

/-- Helper: the node's own `L` adjustment of an out-record writes neither `X`
nor `pi`. -/
theorem outNodeAdj_X (condition : Vec → Bool) (s : EState) (node : Nat) :
    (outNodeAdj condition s node).X = s.X := by
  simp only [outNodeAdj]
  split <;> rfl

/-- Helper: `outNodeAdj` preserves `pi`. -/
theorem outNodeAdj_pi (condition : Vec → Bool) (s : EState) (node : Nat) :
    (outNodeAdj condition s node).pi = s.pi := by
  simp only [outNodeAdj]
  split <;> rfl

/-- Helper: `inNodeAdj` preserves `X`. -/
theorem inNodeAdj_X (condition : Vec → Bool) (s : EState) (node : Nat) :
    (inNodeAdj condition s node).X = s.X := by
  simp only [inNodeAdj]
  split <;> rfl

/-- Helper: `inNodeAdj` preserves `pi`. -/
theorem inNodeAdj_pi (condition : Vec → Bool) (s : EState) (node : Nat) :
    (inNodeAdj condition s node).pi = s.pi := by
  simp only [inNodeAdj]
  split <;> rfl

/-- Helper: the children loop of an in-record never writes `X`. -/
theorem inChildStep_X (condition : Vec → Bool) (node : Nat) (sdx : EState × Vec) (c : Nat) :
    (inChildStep condition node sdx c).1.X = sdx.1.X := by
  simp only [inChildStep]
  split <;> rfl

/-- Helper: the children loop of an in-record attaches exactly the child. -/
theorem inChildStep_pi (condition : Vec → Bool) (node : Nat) (sdx : EState × Vec) (c : Nat) :
    (inChildStep condition node sdx c).1.pi = upd sdx.1.pi c (Int.ofNat node) := by
  simp only [inChildStep]
  split <;> rfl

/-- Helper: an out-record over a single child writes `X` only at the record's
node and along the ancestor chain above it (taken in the detached forest). -/
theorem processOutRec_X_frame (g : Nat) (condition : Vec → Bool) (fuel : Nat)
    (s : EState) (p c0 : Nat) (t : ℚ) (w : Nat) (hwp : w ≠ p)
    (hwanc : w ∉ ancList (upd s.pi c0 (-1)) fuel ((upd s.pi c0 (-1)) p)) :
    (processOutRec g condition fuel s ⟨p, [c0], t⟩).X w = s.X w := by
  have hsingle : outChildren condition s [c0] = outChildStep condition s c0 := rfl
  simp only [processOutRec, hsingle]
  have hs1X : (outChildStep condition s c0).X = s.X := outChildStep_X condition s c0
  have hs2X : (outNodeAdj condition (outChildStep condition s c0) p).X = s.X := by
    rw [outNodeAdj_X, hs1X]
  have hs2pi : (outNodeAdj condition (outChildStep condition s c0) p).pi = upd s.pi c0 (-1) := by
    rw [outNodeAdj_pi, outChildStep_pi]
  split
  · simp only [upd, if_neg hwp]
    rw [propagateOut_X_frame, hs2X]
    rw [hs2pi]
    exact hwanc
  · simp only [upd, if_neg hwp]
    rw [hs2X]

/-- Helper: an out-record over a single child leaves the forest with exactly
that child detached. -/
theorem processOutRec_pi (g : Nat) (condition : Vec → Bool) (fuel : Nat)
    (s : EState) (p c0 : Nat) (t : ℚ) :
    (processOutRec g condition fuel s ⟨p, [c0], t⟩).pi = upd s.pi c0 (-1) := by
  have hsingle : outChildren condition s [c0] = outChildStep condition s c0 := rfl
  simp only [processOutRec, hsingle]
  have hs2pi : (outNodeAdj condition (outChildStep condition s c0) p).pi = upd s.pi c0 (-1) := by
    rw [outNodeAdj_pi, outChildStep_pi]
  split
  · rw [propagateOut_pi, hs2pi]
  · rw [hs2pi]

/-- Helper: an in-record over a single child writes `X` only at the record's
node and along the ancestor chain above it (taken in the re-attached
forest). -/
theorem processInRec_X_frame (g : Nat) (condition : Vec → Bool) (fuel : Nat)
    (s : EState) (q c0 : Nat) (t : ℚ) (w : Nat) (hwq : w ≠ q)
    (hwanc : w ∉ ancList (upd s.pi c0 (Int.ofNat q)) fuel ((upd s.pi c0 (Int.ofNat q)) q)) :
    (processInRec g condition fuel s ⟨q, [c0], t⟩).X w = s.X w := by
  have hsingle : ∀ sdx, inChildren condition q sdx [c0] = inChildStep condition q sdx c0 :=
    fun sdx => rfl
  simp only [processInRec, hsingle]
  set s0 : EState := { s with node_time := upd s.node_time q t } with hs0
  set sdx := inChildStep condition q (s0, zeroVec g) c0 with hsdx
  set s2 : EState := { sdx.1 with X := upd sdx.1.X q sdx.2 } with hs2def
  have hs2X : s2.X w = s.X w := by
    have h1 : s2.X = upd sdx.1.X q sdx.2 := rfl
    rw [h1]
    simp only [upd, if_neg hwq]
    rw [hsdx, inChildStep_X]
  have hs2pi : s2.pi = upd s.pi c0 (Int.ofNat q) := by
    have h1 : s2.pi = sdx.1.pi := rfl
    rw [h1, hsdx, inChildStep_pi]
  have hs3X : (inNodeAdj condition s2 q).X w = s.X w := by
    rw [inNodeAdj_X]
    exact hs2X
  have hs3pi : (inNodeAdj condition s2 q).pi = upd s.pi c0 (Int.ofNat q) := by
    rw [inNodeAdj_pi]
    exact hs2pi
  split
  · rw [propagateIn_X_frame]
    · exact hs3X
    · rw [hs3pi]
      exact hwanc
  · exact hs3X

/-- C9: a diff event that touches only a single leaf edge — one out-record
`(p, [c], t1)` followed by one in-record `(q, [c], t2)` — leaves `X[w]`
unchanged for every node `w` outside the leaf's ancestor chains: the chain
`c, p, ...` it had before the event and the chain `c, q, ...` it has after
it.  Only nodes on the path from the affected child to its root are
written. -/
theorem branch_stats_leaf_edge_frame (g : Nat) (condition : Vec → Bool) (fuel : Nat)
    (s : EState) (p c : Nat) (t1 : ℚ) (q : Nat) (t2 : ℚ) (w : Nat)
    (hold : w ∉ c :: p :: ancList (upd s.pi c (-1)) fuel ((upd s.pi c (-1)) p))
    (hnew : w ∉ c :: q :: ancList (upd s.pi c (Int.ofNat q)) fuel ((upd s.pi c (Int.ofNat q)) q)) :
    (processInRec g condition fuel (processOutRec g condition fuel s ⟨p, [c], t1⟩)
        ⟨q, [c], t2⟩).X w = s.X w := by
  simp only [List.mem_cons, not_or] at hold hnew
  obtain ⟨hwc, hwp, holdanc⟩ := hold
  obtain ⟨-, hwq, hnewanc⟩ := hnew
  have hpi : (processOutRec g condition fuel s ⟨p, [c], t1⟩).pi = upd s.pi c (-1) :=
    processOutRec_pi g condition fuel s p c t1
  rw [processInRec_X_frame g condition fuel _ q c t2 w hwq ?hanc,
    processOutRec_X_frame g condition fuel s p c t1 w hwp holdanc]
  case hanc =>
    rw [hpi, upd_upd]
    exact hnewanc

/-- Witness for C9: leaf `0` moves from parent `3` to parent `5` under root
`4`; the count vector of the unrelated leaf `1` is untouched. -/
theorem branch_stats_leaf_edge_frame_witness :
    (1 ∉ 0 :: 3 :: ancList (upd exFrameState.pi 0 (-1)) 10 ((upd exFrameState.pi 0 (-1)) 3)) ∧
      (1 ∉ 0 :: 5 :: ancList (upd exFrameState.pi 0 (Int.ofNat 5)) 10
        ((upd exFrameState.pi 0 (Int.ofNat 5)) 5)) ∧
      (processInRec 2 condHeadOne 10
          (processOutRec 2 condHeadOne 10 exFrameState ⟨3, [0], 1⟩) ⟨5, [0], 3/2⟩).X 1
        = exFrameState.X 1 :=
  ⟨by decide, by decide,
    branch_stats_leaf_edge_frame 2 condHeadOne 10 exFrameState 3 0 1 5 (3/2) 1
      (by decide) (by decide)⟩

set_option maxHeartbeats 1600000 in
/-- C1 fails on the code: on the two-tree sequence of `exDiffTS` (equal to
the materialized `exNaiveTS`) with groups `[[0]]` and the always-true
predicate, the incremental engine returns `9/2` while the naive baseline
returns `5`.  Each tree's total counted branch length is `5`; the engine's
running `L` is only `4` after the second diff event because it subtracts the
removed inner node `3`'s branch twice (once at node `3`'s own record, once as
a child of node `4`'s record, where its zeroed count vector still satisfies
the predicate). -/
theorem branch_stats_disagrees_with_node_iter :
    branch_stats exDiffTS exGroups condTrue 10 = 9/2 ∧
      branch_stats_node_iter exNaiveTS exGroups condTrue "length" 10 = Except.ok 5 ∧
      (9/2 : ℚ) ≠ 5 := by
  refine ⟨?_, ?_, by norm_num⟩
  · norm_num [branch_stats, runDiffs, processEvent, processRecsOut, processRecsIn,
      processOutRec, processInRec, outChildren, outChildStep, inChildren, inChildStep,
      outNodeAdj, inNodeAdj, propagateOut, propagateIn, initState, exDiffTS, exGroups,
      condTrue, iGet, upd, vAdd, vSub, zeroVec]
  · norm_num [branch_stats_node_iter, nodeIterAux, lengthNodeSum, countVec,
      num_tracked_leaves, ancChainIncl, branchLength, exNaiveTS, exTree1, exTree2,
      exGroups, condTrue, List.filter, Except.map]

set_option maxHeartbeats 2400000 in
/-- C2 fails on the code: after the second diff event of `exDiffTS` with the
always-true predicate, every count vector `X[u]` does equal the exact
per-group descendant-leaf count of the current forest, but the engine's `L`
is `4` while the exact sum of branch lengths of the non-root nodes whose
count vector satisfies the predicate is `5`. -/
theorem branch_stats_invariant_fails :
    ((List.range 7).map exState2.X = (List.range 7).map (specXVec exGroups exState2.pi 10)) ∧
      exState2.L = 4 ∧ specL condTrue exState2 = 5 ∧ (4 : ℚ) ≠ 5 := by
  refine ⟨?_, ?_, ?_, by norm_num⟩
  · norm_num [exState2, specXVec, piChainIncl, runDiffs, processEvent, processRecsOut,
      processRecsIn, processOutRec, processInRec, outChildren, outChildStep, inChildren,
      inChildStep, outNodeAdj, inNodeAdj, propagateOut, propagateIn, initState, exDiffTS,
      exGroups, condTrue, iGet, upd, vAdd, vSub, zeroVec, List.filter, List.range,
      List.range.loop, Int.toNat]
  · norm_num [exState2, runDiffs, processEvent, processRecsOut, processRecsIn,
      processOutRec, processInRec, outChildren, outChildStep, inChildren, inChildStep,
      outNodeAdj, inNodeAdj, propagateOut, propagateIn, initState, exDiffTS, exGroups,
      condTrue, iGet, upd, vAdd, vSub, zeroVec]
  · norm_num [exState2, specL, runDiffs, processEvent, processRecsOut, processRecsIn,
      processOutRec, processInRec, outChildren, outChildStep, inChildren, inChildStep,
      outNodeAdj, inNodeAdj, propagateOut, propagateIn, initState, exDiffTS, exGroups,
      condTrue, iGet, upd, vAdd, vSub, zeroVec, List.range, List.range.loop, Int.toNat]

end BranchStats
